import Mathlib

set_option maxHeartbeats 1000000

/-!
Shallow embedding of the filename-change preview/rename engine
(src/state.rs, src/preview.rs, src/rename.rs, src/controller.rs).

Strings are modelled as lists of characters.  Paths are full path strings
joined with a separator character; `baseName`/`parentDir` model
`Path::file_name`/`Path::parent` on the well-formed paths the directory
walker produces.  The external regex and glob engines of the exclusion
filter are abstracted as matcher-compiling parameters; the search/replace
regex of the transformer is always built from `regex::escape` of the search
pattern, so its matching semantics is literal (case-foldable) substring
replacement, which is embedded directly.  The filesystem is abstracted as
a boolean existence oracle, and the walker's enumeration as an input list.
-/

/-- Strings as lists of characters. -/
abbrev Chars := List Char

/-- Models `u8::to_ascii_lowercase` on one character. -/
def asciiLower (c : Char) : Char :=
  if 'A' ≤ c ∧ c ≤ 'Z' then Char.ofNat (c.toNat + 32) else c

/-- Models `str::to_ascii_lowercase`. -/
def lowerStr (s : Chars) : Chars := s.map asciiLower

/-- Substring test, modelling `str::contains` on already-lowered strings. -/
def isSubstr (needle : Chars) : Chars → Bool
  | [] => needle.isEmpty
  | c :: t => needle.isPrefixOf (c :: t) || isSubstr needle t

/-- Path separator characters recognised by the engine. -/
def isSep (c : Char) : Bool := c = '/' || c = '\\'

/-- Models `Path::file_name` for a scanned path: the part after the last separator. -/
def baseName (p : Chars) : Chars :=
  (p.reverse.takeWhile (fun c => !(isSep c))).reverse

/-- Models `Path::parent` rendered as a string: the part before the last separator. -/
def parentDir (p : Chars) : Chars :=
  match p.reverse.dropWhile (fun c => !(isSep c)) with
  | [] => []
  | _ :: rest => rest.reverse

/-- Path assembly of `PathBuf::join` and `Path::with_file_name`. -/
def pathJoin (dir name : Chars) : Chars :=
  if dir = [] then name else dir ++ '/' :: name

/-- One decimal digit character. -/
def digitChar (n : Nat) : Char := Char.ofNat (48 + n)

/-- Fuelled decimal rendering helper. -/
def natDigitsAux : Nat → Nat → Chars
  | 0, _ => []
  | fuel + 1, n =>
    if n < 10 then [digitChar n] else natDigitsAux fuel (n / 10) ++ [digitChar (n % 10)]

/-- Decimal rendering of a number, as the Rust formatter prints it. -/
def natDigits (n : Nat) : Chars := natDigitsAux (n + 1) n

/-- FileEntry of src/state.rs. -/
structure FileEntry where
  original_path : Chars
  new_name : Chars
  search_pattern : Chars
  replace_pattern : Chars
  case_sensitive : Bool
deriving DecidableEq, Repr

/-- AppState of src/state.rs. -/
structure AppState where
  selected_dir : Chars
  files : List FileEntry
  preview_files : List FileEntry
  search_pattern : Chars
  replace_pattern : Chars
  exclude_pattern : Chars
  case_sensitive : Bool
  include_subdirectories : Bool
  auto_number_on_conflict : Bool
  status_message : Chars
  conversion_in_progress : Bool
  conversion_total : Nat
  conversion_done : Nat
deriving DecidableEq

/-! ### Exclusion engine (src/preview.rs, load_files lines 22-99) -/

/-- The four kinds of exclusion tokens. -/
inductive ExcludeTok where
  | regexTok (pat : Chars)
  | globTok (pat : Chars)
  | pathSub (pat : Chars)
  | nameSub (pat : Chars)
deriving DecidableEq

/-- ASCII whitespace, modelling `str::trim` on the spec tokens. -/
def isWsChar (c : Char) : Bool := c = ' ' || c = '\t' || c = '\n' || c = '\r'

/-- Models `str::trim`. -/
def trimChars (s : Chars) : Chars :=
  ((s.dropWhile isWsChar).reverse.dropWhile isWsChar).reverse

/-- Helper for `str::split(',')`. -/
def splitCommaAux : Chars → Chars → List Chars
  | [], acc => [acc.reverse]
  | c :: rest, acc =>
    if c = ',' then acc.reverse :: splitCommaAux rest [] else splitCommaAux rest (c :: acc)

/-- Models `str::split` at commas. -/
def splitComma (s : Chars) : List Chars := splitCommaAux s []

/-- The trimmed, non-empty comma-separated tokens of an exclusion spec. -/
def tokensOf (spec : Chars) : List Chars :=
  ((splitComma spec).map trimChars).filter (fun t => t ≠ [])

/-- Does a token contain a glob metacharacter (`has_glob_meta`)? -/
def hasGlobMeta (s : Chars) : Bool :=
  s.any (fun c => c = '*' || c = '?' || c = '[' || c = Char.ofNat 123)

/-- Does a token contain a path separator (`has_sep`)? -/
def hasSep (s : Chars) : Bool := s.any isSep

/-- Token classification, in the fixed priority of the compile loop:
regex prefix, then glob metacharacters, then path separator, else filename
substring. -/
def classify (raw : Chars) : ExcludeTok :=
  if ['r', 'e', ':'].isPrefixOf (lowerStr raw) then .regexTok (raw.drop 3)
  else if hasGlobMeta raw then .globTok raw
  else if hasSep raw then .pathSub raw
  else .nameSub raw

/-- The four compiled matcher groups of load_files. -/
structure ExcludeSets where
  globs : List (Chars → Bool)
  regexes : List (Chars → Bool)
  name_subs : List Chars
  path_subs : List Chars

/-- The compile loop of load_files over the token list.  `rB`/`gB` are the
external regex/glob compilers (returning `none` on a compile failure, in
which case the token is dropped, excluding nothing). -/
def compileTokens (rB gB : Chars → Option (Chars → Bool)) : List Chars → ExcludeSets
  | [] => ⟨[], [], [], []⟩
  | raw :: rest =>
    let acc := compileTokens rB gB rest
    match classify raw with
    | .regexTok p =>
      match rB p with
      | some m => { acc with regexes := m :: acc.regexes }
      | none => acc
    | .globTok p =>
      match gB p with
      | some m => { acc with globs := m :: acc.globs }
      | none => acc
    | .pathSub p => { acc with path_subs := lowerStr p :: acc.path_subs }
    | .nameSub p => { acc with name_subs := lowerStr p :: acc.name_subs }

/-- Compile a raw exclusion spec string. -/
def compileExcludes (rB gB : Chars → Option (Chars → Bool)) (spec : Chars) : ExcludeSets :=
  compileTokens rB gB (tokensOf spec)

/-- The per-candidate exclusion test of load_files (the sequence of
`continue` checks: glob set, regexes, filename substrings, path
substrings). -/
def excludedBy (es : ExcludeSets) (fullPath : Chars) : Bool :=
  es.globs.any (fun m => m fullPath)
  || es.regexes.any (fun m => m fullPath)
  || es.name_subs.any (fun tok => isSubstr tok (lowerStr (baseName fullPath)))
  || es.path_subs.any (fun sub => isSubstr sub (lowerStr fullPath))

/-! ### Directory scan (src/preview.rs, load_files) -/

/-- The FileEntry built for a surviving walker entry. -/
def mkFileEntry (st : AppState) (p : Chars) : FileEntry :=
  { original_path := p
    new_name := baseName p
    search_pattern := st.search_pattern
    replace_pattern := st.replace_pattern
    case_sensitive := st.case_sensitive }

/-- load_files.  `dirOk` abstracts `path.exists() && path.is_dir()`;
`listing` is the sequence of regular-file paths the directory walker
yields, in its enumeration order. -/
def load_files (rB gB : Chars → Option (Chars → Bool)) (dirOk : Bool)
    (listing : List Chars) (st : AppState) : AppState :=
  if dirOk then
    let es := compileExcludes rB gB st.exclude_pattern
    let fs := (listing.filter (fun p => !(excludedBy es p))).map (mkFileEntry st)
    { st with files := fs
              status_message := "ファイル ".data ++ natDigits fs.length ++ " 件を読み込み".data }
  else
    { st with status_message := "ディレクトリが見つかりません".data, files := [] }

/-! ### Name transformer (src/preview.rs, update_preview lines 128-154) -/

/-- Character comparison used by the compiled search regex: exact when
case-sensitive, up to ASCII lowering otherwise. -/
def foldChar (cs : Bool) (c : Char) : Char := if cs then c else asciiLower c

/-- Does the literal pattern match at the head of `s` (up to case folding)? -/
def matchHere (cs : Bool) : Chars → Chars → Bool
  | [], _ => true
  | _ :: _, [] => false
  | p :: ps, c :: rest => (foldChar cs p == foldChar cs c) && matchHere cs ps rest

/-- Fuelled body of `Regex::replace_all` for the escaped-literal pattern:
scan left to right, replace each non-overlapping match, continue after it. -/
def replaceAllAux (cs : Bool) (pat rep : Chars) : Nat → Chars → Chars
  | 0, s => s
  | _ + 1, [] => []
  | fuel + 1, c :: rest =>
    if matchHere cs pat (c :: rest) then
      rep ++ replaceAllAux cs pat rep fuel ((c :: rest).drop pat.length)
    else
      c :: replaceAllAux cs pat rep fuel rest

/-- Models `Regex::replace_all` with `NoExpand` of the replace pattern, for the
regex built from `regex::escape(search_pattern)`: the replacement is spliced
in verbatim. -/
def replace_all (cs : Bool) (pat rep s : Chars) : Chars :=
  replaceAllAux cs pat rep s.length s

/-- The basename transform of update_preview: identity on an empty search
pattern, otherwise the global literal replace. -/
def transform_name (sp rp : Chars) (cs : Bool) (name : Chars) : Chars :=
  if sp = [] then name else replace_all cs sp rp name

/-- Index of the leftmost match of the literal pattern, if any. -/
def findMatchIdx (cs : Bool) (pat : Chars) : Chars → Option Nat
  | [] => if matchHere cs pat [] then some 0 else none
  | c :: rest =>
    if matchHere cs pat (c :: rest) then some 0
    else (findMatchIdx cs pat rest).map (· + 1)

/-- Specification-style replacement: find the leftmost match, splice the
replacement in verbatim, continue after the match (fuelled). -/
def specReplaceAux (cs : Bool) (pat rep : Chars) : Nat → Chars → Chars
  | 0, s => s
  | fuel + 1, s =>
    match findMatchIdx cs pat s with
    | none => s
    | some i => s.take i ++ rep ++ specReplaceAux cs pat rep fuel (s.drop (i + pat.length))

/-- Specification-style global, non-overlapping, left-to-right, verbatim
replacement, written from the spec's words for comparison with
`replace_all`. -/
def spec_replace_all (cs : Bool) (pat rep s : Chars) : Chars :=
  specReplaceAux cs pat rep s.length s

/-! ### regex::escape model (for the `unwrap` in update_preview line 134) -/

/-- The metacharacter set escaped by `regex::escape`
(regex-syntax `is_meta_character`). -/
def isRegexMeta (c : Char) : Bool :=
  c = '\\' || c = '.' || c = '+' || c = '*' || c = '?' || c = '(' || c = ')' || c = '|' ||
  c = '[' || c = ']' || c = Char.ofNat 123 || c = Char.ofNat 125 || c = '^' || c = '$' ||
  c = '#' || c = '&' || c = '-' || c = '~'

/-- Models `regex::escape`: backslash-escape every metacharacter. -/
def regex_escape : Chars → Chars
  | [] => []
  | c :: t => (if isRegexMeta c then ['\\', c] else [c]) ++ regex_escape t

/-- The regex parser restricted to the literal fragment (the image of
`regex::escape`): a plain non-metacharacter stands for itself, a backslash
followed by a metacharacter stands for that character, anything else is a
parse error.  Returns the literal character sequence the pattern matches. -/
def parse_escaped : Chars → Option Chars
  | [] => some []
  | c :: rest =>
    if c = '\\' then
      match rest with
      | [] => none
      | d :: rest2 =>
        if isRegexMeta d then (parse_escaped rest2).map (fun t => d :: t) else none
    else if isRegexMeta c then none
    else (parse_escaped rest).map (fun t => c :: t)

/-! ### Conflict resolver: auto-numbering (src/preview.rs lines 180-233) -/

/-- Pointwise update of the per-directory used-name map
(`used_by_parent.entry(k).or_default().insert(v)`). -/
def updFn (m : Chars → List Chars) (k : Chars) (v : Chars) : Chars → List Chars :=
  fun p => if p = k then v :: m p else m p

/-- The lowered parent-directory key of a path. -/
def parentKey (p : Chars) : Chars := lowerStr (parentDir p)

/-- Seeding of the used-name map with every scanned file's lower-cased
original basename, keyed by its lowered parent directory. -/
def seedUsed : List FileEntry → Chars → List Chars
  | [] => fun _ => []
  | f :: rest =>
    updFn (seedUsed rest) (parentKey f.original_path) (lowerStr (baseName f.original_path))

/-- Helper for `rsplit_once('.')`: splits at the last dot, if any. -/
def rsplitDotAux : Chars → Option (Chars × Chars)
  | [] => none
  | c :: t =>
    match rsplitDotAux t with
    | some (b, e) => some (c :: b, e)
    | none => if c = '.' then some ([], t) else none

/-- Models `rsplit_once` at the dot, as used by the auto-numberer: base and
extension (the extension keeps its leading dot; no dot gives an empty
extension). -/
def rsplitDot (s : Chars) : Chars × Chars :=
  match rsplitDotAux s with
  | some (b, e) => (b, '.' :: e)
  | none => (s, [])

/-- The numbered-name format: base, a space, the parenthesised counter, the extension. -/
def numbered (base : Chars) (n : Nat) (ext : Chars) : Chars :=
  base ++ ' ' :: '(' :: (natDigits n ++ ')' :: ext)

/-- The numbering loop: try `(2)`, `(3)`, … until the lowered candidate is
unused.  Fuelled; one more trial than the used list is long always
suffices. -/
def pickFrom (used : List Chars) (base ext : Chars) : Nat → Nat → Chars
  | 0, n => numbered base n ext
  | fuel + 1, n =>
    let c := numbered base n ext
    if lowerStr c ∈ used then pickFrom used base ext fuel (n + 1) else c

/-- Renumber one colliding candidate. -/
def pickNumbered (used : List Chars) (cand : Chars) : Chars :=
  pickFrom used (rsplitDot cand).1 (rsplitDot cand).2 (used.length + 1) 2

/-- The auto-numbering pass over the changed records, in list order: a
candidate already used (case-insensitively) in its directory is renumbered;
every final name is reserved immediately.  Also counts renumbered
records. -/
def autoNumber (m : Chars → List Chars) : List FileEntry → List FileEntry × Nat
  | [] => ([], 0)
  | f :: rest =>
    let used := m (parentKey f.original_path)
    let step : Chars × Nat :=
      if lowerStr f.new_name ∈ used then (pickNumbered used f.new_name, 1) else (f.new_name, 0)
    let res := autoNumber (updFn m (parentKey f.original_path) (lowerStr step.1)) rest
    ({ f with new_name := step.1 } :: res.1, step.2 + res.2)

/-! ### Preview update (src/preview.rs, update_preview) -/

/-- The duplicate-target counter of update_preview (lines 166-178): one per
preview record whose lowered target path was already seen. -/
def dupCountAux : List Chars → List Chars → Nat
  | [], _ => 0
  | k :: rest, seen => (if k ∈ seen then 1 else 0) + dupCountAux rest (k :: seen)

/-- The lowered target path of a preview record. -/
def previewKey (f : FileEntry) : Chars :=
  lowerStr (pathJoin (parentDir f.original_path) f.new_name)

/-- Duplicate-target count over the preview set. -/
def dup_count_of (preview : List FileEntry) : Nat :=
  dupCountAux (preview.map previewKey) []

/-- The `map_by_original` lookup of update_preview lines 234-238: a map from
original path to final preview name; on duplicate paths the later insert
wins, so entries further down the list take precedence. -/
def buildNameMap : List FileEntry → Chars → Option Chars
  | [] => fun _ => none
  | f :: rest => fun q =>
    match buildNameMap rest q with
    | some n => some n
    | none => if q = f.original_path then some f.new_name else none

/-- The transform loop of update_preview lines 136-154: every record's
`new_name` becomes the transformed original basename, and the display
fields are refreshed. -/
def transformedFiles (st : AppState) : List FileEntry :=
  st.files.map (fun f =>
    { f with
      new_name :=
        transform_name st.search_pattern st.replace_pattern st.case_sensitive
          (baseName f.original_path)
      search_pattern := st.search_pattern
      replace_pattern := st.replace_pattern
      case_sensitive := st.case_sensitive })

/-- The preview collection of update_preview lines 155-165: the records
whose new basename differs (case-sensitively) from the original one. -/
def previewOf (files2 : List FileEntry) : List FileEntry :=
  files2.filter (fun f => decide (baseName f.original_path ≠ f.new_name))

/-- Lines 180-233: the (possibly auto-numbered) preview and the renumber
count. -/
def numberedPreview (st : AppState) (files2 preview0 : List FileEntry) :
    List FileEntry × Nat :=
  if st.auto_number_on_conflict ∧ preview0 ≠ [] then autoNumber (seedUsed files2) preview0
  else (preview0, 0)

/-- Lines 234-244: copy the final preview names back into the full record
list, keyed by original path. -/
def writeBack (preview1 files2 : List FileEntry) : List FileEntry :=
  if preview1 ≠ [] then
    files2.map (fun f =>
      match buildNameMap preview1 f.original_path with
      | some n => { f with new_name := n }
      | none => f)
  else files2

/-- Lines 246-264: the preview status line. -/
def previewStatus (auto : Bool) (changedN numberedN dupN : Nat) : Chars :=
  if auto then
    if numberedN > 0 then
      "プレビュー更新 (変更 ".data ++ natDigits changedN ++ " 件, 連番付与 ".data
        ++ natDigits numberedN ++ " 件)".data
    else "プレビュー更新 (変更 ".data ++ natDigits changedN ++ " 件)".data
  else if dupN > 0 then
    "プレビュー更新 (変更 ".data ++ natDigits changedN ++ " 件, 重複 ".data
      ++ natDigits dupN ++ " 件)".data
  else "プレビュー更新 (変更 ".data ++ natDigits changedN ++ " 件)".data

/-- The pure core of update_preview, applied to a state whose `files` field
already holds the scan result (lines 125-265): transform every basename,
collect the changed records, optionally auto-number, copy the final names
back into `files`, and format the status line. -/
def update_preview_core (st : AppState) : AppState :=
  let files2 := transformedFiles st
  let preview0 := previewOf files2
  let anRes := numberedPreview st files2 preview0
  { st with files := writeBack anRes.1 files2
            preview_files := anRes.1
            status_message :=
              previewStatus st.auto_number_on_conflict anRes.1.length anRes.2
                (dup_count_of preview0) }

/-- update_preview: reload the file list, then run the preview core. -/
def update_preview (rB gB : Chars → Option (Chars → Bool)) (dirOk : Bool)
    (listing : List Chars) (st : AppState) : AppState :=
  update_preview_core (load_files rB gB dirOk listing st)

/-! ### Rename executor (src/rename.rs, apply_changes) -/

/-- The target path `original_path.with_file_name(&f.new_name)`. -/
def targetPathOf (f : FileEntry) : Chars :=
  pathJoin (parentDir f.original_path) f.new_name

/-- The changed records extracted by apply_changes lines 17-33: the original
path still exists and the basename actually changes.  `existsOn` abstracts
`Path::exists`. -/
def changedFiles (existsOn : Chars → Bool) (st : AppState) : List FileEntry :=
  st.files.filter (fun f =>
    existsOn f.original_path && decide (baseName f.original_path ≠ f.new_name))

/-- The duplicate-target groups of apply_changes lines 42-65: the distinct
lowered target paths claimed by more than one changed record. -/
def dupGroups (changed : List FileEntry) : List Chars :=
  ((changed.map (fun f => lowerStr (targetPathOf f))).dedup).filter
    (fun t => 1 < (changed.map (fun f => lowerStr (targetPathOf f))).count t)

/-- The existing-file conflicts of apply_changes lines 52-60: targets that
exist on disk and differ case-insensitively from the record's own original
path. -/
def existingConflicts (existsOn : Chars → Bool) (changed : List FileEntry) : List Chars :=
  (changed.filter (fun f =>
    existsOn (targetPathOf f) && decide (lowerStr (targetPathOf f) ≠ lowerStr f.original_path))).map
    targetPathOf

/-- The collision status line of apply_changes lines 70-73. -/
def collisionMsg (d e : Nat) : Chars :=
  "衝突を検出: 新名の重複 ".data ++ natDigits d ++ " 件、既存ファイルとの衝突 ".data
    ++ natDigits e ++ " 件".data

/-- apply_changes: the state transition plus the list of rename operations
(original path, target path) submitted to the parallel executor; an empty
list means no filesystem mutation is initiated. -/
def apply_changes (existsOn : Chars → Bool) (st : AppState) :
    AppState × List (Chars × Chars) :=
  if st.conversion_in_progress then (st, [])
  else
    let changed := changedFiles existsOn st
    if changed.length = 0 then
      ({ st with status_message := "変更対象のファイルはありません。".data }, [])
    else
      let dups := dupGroups changed
      let exConf := existingConflicts existsOn changed
      if dups ≠ [] ∨ exConf ≠ [] then
        ({ st with status_message := collisionMsg dups.length exConf.length }, [])
      else
        ({ st with conversion_total := changed.length
                   conversion_done := 0
                   conversion_in_progress := true },
         changed.map (fun f => (f.original_path, targetPathOf f)))

/-! ### Progress model (src/rename.rs lines 82-100, src/controller.rs 24-29)

Each parallel rename worker performs two atomic actions, in program order:
`counter.fetch_add(1)` (obtaining the new completed count) and
`submit_command(RENAMING_PROGRESS, done_count)` (appending that value to
the event queue).  The controller consumes the queue in order, overwriting
`conversion_done` with each delivered value.  A schedule is a list of
worker indices; each valid step performs the worker's next pending
action. -/

/-- Worker status: before its fetch, holding its fetched value, or done. -/
inductive WStatus where
  | idle
  | fetched (v : Nat)
  | sent
deriving DecidableEq, Repr

/-- Configuration of one apply run: the atomic counter, the workers, and
the queue of progress-tick values in delivery order. -/
structure RenameRun where
  counter : Nat
  workers : List WStatus
  channel : List Nat
deriving DecidableEq, Repr

/-- Replace element `i` of a worker list. -/
def setAt : List WStatus → Nat → WStatus → List WStatus
  | [], _, _ => []
  | _ :: t, 0, w => w :: t
  | h :: t, i + 1, w => h :: setAt t i w

/-- One atomic action of worker `i`. -/
def stepRun (cfg : RenameRun) (i : Nat) : Option RenameRun :=
  match cfg.workers.get? i with
  | some .idle =>
    some { counter := cfg.counter + 1
           workers := setAt cfg.workers i (.fetched (cfg.counter + 1))
           channel := cfg.channel }
  | some (.fetched v) =>
    some { counter := cfg.counter
           workers := setAt cfg.workers i .sent
           channel := cfg.channel ++ [v] }
  | _ => none

/-- Run a schedule of worker actions. -/
def runSched (cfg : RenameRun) : List Nat → Option RenameRun
  | [] => some cfg
  | i :: rest =>
    match stepRun cfg i with
    | some cfg2 => runSched cfg2 rest
    | none => none

/-- The initial configuration for `n` submitted records. -/
def initRun (n : Nat) : RenameRun := ⟨0, List.replicate n .idle, []⟩

/-- Every worker has completed both of its actions. -/
def allSent (cfg : RenameRun) : Prop := ∀ w ∈ cfg.workers, w = .sent

/-- The fetched-but-not-yet-submitted tick values. -/
def pendingVals (ws : List WStatus) : List Nat :=
  ws.filterMap (fun w => match w with | .fetched v => some v | _ => none)

/-- How many workers have performed their fetch. -/
def notIdleCount (ws : List WStatus) : Nat :=
  (ws.filter (fun w => decide (w ≠ .idle))).length

/-- The successive values of `conversion_done` seen by the state holder:
`0` at apply start, then each delivered tick value in queue order. -/
def doneTrace (cfg : RenameRun) : List Nat := 0 :: cfg.channel

/-! ### Concrete instances used by witnesses and counterexamples -/

/-- The initial state `AppState::new`. -/
def baseState : AppState :=
  { selected_dir := []
    files := []
    preview_files := []
    search_pattern := []
    replace_pattern := []
    exclude_pattern := []
    case_sensitive := false
    include_subdirectories := false
    auto_number_on_conflict := false
    status_message := "準備完了".data
    conversion_in_progress := false
    conversion_total := 0
    conversion_done := 0 }

/-- A freshly scanned record for path `p` (new name = original basename). -/
def entryOf (p : Chars) : FileEntry :=
  { original_path := p, new_name := baseName p
    search_pattern := [], replace_pattern := [], case_sensitive := false }

/-- Two changed records both proposing the same target `d/same.txt`. -/
def c1state : AppState :=
  { baseState with files := [
      { original_path := "d/a.txt".data, new_name := "same.txt".data
        search_pattern := [], replace_pattern := [], case_sensitive := false },
      { original_path := "d/b.txt".data, new_name := "same.txt".data
        search_pattern := [], replace_pattern := [], case_sensitive := false }] }

/-- Auto-numbering on; deleting every `1` sends both `dup1.txt` and
`dup11.txt` to the candidate `dup.txt` in directory `d`. -/
def c2state : AppState :=
  { baseState with
    selected_dir := "d".data
    files := [entryOf "d/dup1.txt".data, entryOf "d/dup11.txt".data]
    search_pattern := "1".data
    case_sensitive := true
    auto_number_on_conflict := true }

/-- Renaming `File.txt` to `file.txt` (a case-only change) with
auto-numbering on. -/
def c8state : AppState :=
  { baseState with
    files := [entryOf "d/File.txt".data]
    search_pattern := "File".data
    replace_pattern := "file".data
    case_sensitive := true
    auto_number_on_conflict := true }

/-- One record renamed `a.png` to `b.png`. -/
def c9state : AppState :=
  { baseState with
    files := [entryOf "d/a.png".data]
    search_pattern := "a".data
    replace_pattern := "b".data
    case_sensitive := true }

/-- The preview record produced by `update_preview_core c9state`. -/
def c9previewEntry : FileEntry :=
  { original_path := "d/a.png".data, new_name := "b.png".data
    search_pattern := "a".data, replace_pattern := "b".data, case_sensitive := true }

/-- Strict lexicographic comparison of names, for the sortedness statement. -/
def lexLtB : Chars → Chars → Bool
  | [], [] => false
  | [], _ :: _ => true
  | _ :: _, [] => false
  | a :: as2, b :: bs => decide (a < b) || (a == b && lexLtB as2 bs)

/-- Is the record list sorted by filename string (each adjacent pair in
non-decreasing lexicographic order)? -/
def sortedByName : List FileEntry → Bool
  | [] => true
  | [_] => true
  | a :: b :: t => !(lexLtB b.new_name a.new_name) && sortedByName (b :: t)

/-- Declarative per-token exclusion semantics: what it means for a
candidate's full path to match one spec token, according to the token's
classified kind. -/
def tokMatches (rB gB : Chars → Option (Chars → Bool)) (fullPath raw : Chars) : Prop :=
  match classify raw with
  | .regexTok p => ∃ m, rB p = some m ∧ m fullPath = true
  | .globTok p => ∃ m, gB p = some m ∧ m fullPath = true
  | .pathSub p => isSubstr (lowerStr p) (lowerStr fullPath) = true
  | .nameSub p => isSubstr (lowerStr p) (lowerStr (baseName fullPath)) = true

/-! ### Theorems -/

/-- Claim C10: update_preview never panics at its regex construction: for
every search pattern, the pattern built there is `regex::escape` of the
search string, every escaped pattern is syntactically valid (the parser
accepts it, yielding exactly the literal search string), so the `unwrap`
on the build result always succeeds. -/
theorem update_preview_regex_never_panics :
    ∀ s : Chars, parse_escaped (regex_escape s) = some s := by
  intro s
  induction s with
  | nil => rfl
  | cons c t ih =>
    by_cases h : isRegexMeta c = true
    · have hb : isRegexMeta '\\' = true := by decide
      simp [regex_escape, h, parse_escaped, ih]
    · have hc : ¬ c = '\\' := by
        intro e
        rw [e] at h
        exact h (by decide)
      cases hsh : regex_escape t with
      | nil =>
        rw [hsh] at ih
        simp only [parse_escaped, Option.some.injEq] at ih
        simp [regex_escape, h, hsh, parse_escaped, hc, ← ih]
      | cons d r =>
        rw [hsh] at ih
        simp [regex_escape, h, hsh, parse_escaped, hc, ih]

/-- Claim C2: with auto-numbering enabled, two changed records both
proposing `dup.txt` in the same directory (no scanned file is named
`dup.txt`): the first keeps `dup.txt`, the second is renumbered to the
first unused candidate `dup (2).txt` (split at the last dot), and the
status line reports 1 renumbered record; names are reserved as they are
assigned. -/
theorem update_preview_auto_number_example :
    (update_preview_core c2state).preview_files.map FileEntry.new_name
        = ["dup.txt".data, "dup (2).txt".data]
      ∧ (update_preview_core c2state).status_message
        = "プレビュー更新 (変更 2 件, 連番付与 1 件)".data := by
  constructor
  · decide
  · decide

/-- Claim C4 counterexample: the scanner does not sort.  With the walker
enumerating `d/b.txt` before `d/a.txt`, the record list keeps that order
and is not sorted by filename string. -/
theorem load_files_not_sorted_counterexample :
    (load_files (fun _ => none) (fun _ => none) true
        ["d/b.txt".data, "d/a.txt".data] baseState).files.map FileEntry.new_name
      = ["b.txt".data, "a.txt".data]
    ∧ ¬ sortedByName (load_files (fun _ => none) (fun _ => none) true
        ["d/b.txt".data, "d/a.txt".data] baseState).files = true := by
  constructor
  · decide
  · decide

/-- Claim C4 (amended): for every scan, the file-record list preserves the
walker's enumeration order — it is the exclusion-filtered walker listing
mapped to records, a sublist of the listing; no sort by filename is
applied. -/
theorem load_files_preserves_walk_order
    (rB gB : Chars → Option (Chars → Bool)) (dirOk : Bool)
    (listing : List Chars) (st : AppState) :
    ((load_files rB gB dirOk listing st).files).Sublist (listing.map (mkFileEntry st)) := by
  by_cases h : dirOk = true
  · simp only [load_files, h, if_true]
    exact List.Sublist.map (mkFileEntry st) (List.filter_sublist listing)
  · simp only [load_files, h]
    simp

/-- load_files never touches the search pattern. -/
theorem load_files_search_pattern (rB gB : Chars → Option (Chars → Bool)) (dirOk : Bool)
    (listing : List Chars) (st : AppState) :
    (load_files rB gB dirOk listing st).search_pattern = st.search_pattern := by
  unfold load_files
  split <;> rfl

/-- With an empty search pattern the transform is the identity on every
record. -/
theorem transformedFiles_empty_search (st : AppState) (h : st.search_pattern = []) :
    ∀ f ∈ transformedFiles st, f.new_name = baseName f.original_path := by
  intro f hf
  rcases List.mem_map.mp hf with ⟨g, _, rfl⟩
  simp [transform_name, h]

/-- Unchanged records produce an empty preview. -/
theorem previewOf_eq_nil (l : List FileEntry)
    (h : ∀ f ∈ l, f.new_name = baseName f.original_path) : previewOf l = [] := by
  rw [previewOf, List.filter_eq_nil_iff]
  intro f hf
  simp [h f hf]

/-- Empty-search behaviour of the preview core. -/
theorem update_preview_core_empty_search (st : AppState) (h : st.search_pattern = []) :
    (update_preview_core st).preview_files = []
    ∧ ∀ f ∈ (update_preview_core st).files, f.new_name = baseName f.original_path := by
  have hid := transformedFiles_empty_search st h
  have hprev : previewOf (transformedFiles st) = [] := previewOf_eq_nil _ hid
  have han : numberedPreview st (transformedFiles st) (previewOf (transformedFiles st))
      = ([], 0) := by
    rw [hprev]
    simp [numberedPreview]
  constructor
  · simp [update_preview_core, han]
  · intro f hf
    apply hid
    simpa [update_preview_core, han, writeBack] using hf

/-- Claim C6: with an empty search pattern, update_preview leaves every
record's new name equal to its original basename (identity transform) and
produces an empty preview set. -/
theorem update_preview_empty_search_identity (rB gB : Chars → Option (Chars → Bool))
    (dirOk : Bool) (listing : List Chars) (st : AppState) (h : st.search_pattern = []) :
    (update_preview rB gB dirOk listing st).preview_files = []
    ∧ ∀ f ∈ (update_preview rB gB dirOk listing st).files,
        f.new_name = baseName f.original_path := by
  unfold update_preview
  exact update_preview_core_empty_search _
    (by rw [load_files_search_pattern]; exact h)

/-- Witness for C6 at a concrete state and listing. -/
theorem update_preview_empty_search_identity_witness :
    baseState.search_pattern = []
    ∧ ((update_preview (fun _ => none) (fun _ => none) true
          ["d/x.txt".data] baseState).preview_files = []
       ∧ ∀ f ∈ (update_preview (fun _ => none) (fun _ => none) true
            ["d/x.txt".data] baseState).files,
           f.new_name = baseName f.original_path) :=
  ⟨rfl, update_preview_empty_search_identity (fun _ => none) (fun _ => none) true
    ["d/x.txt".data] baseState rfl⟩

/-! ### The transformer performs a global, left-to-right, verbatim replace -/

/-- A non-empty pattern never matches at the end of the string. -/
theorem matchHere_nil_false (cs : Bool) {pat : Chars} (h : pat ≠ []) :
    matchHere cs pat [] = false := by
  cases pat with
  | nil => exact absurd rfl h
  | cons p ps => rfl

/-- A match needs at least the pattern's length of input. -/
theorem matchHere_le_length (cs : Bool) :
    ∀ (pat s : Chars), matchHere cs pat s = true → pat.length ≤ s.length := by
  intro pat
  induction pat with
  | nil => intro s _; exact Nat.zero_le _
  | cons p ps ih =>
    intro s h
    cases s with
    | nil => simp [matchHere] at h
    | cons c rest =>
      simp only [matchHere, Bool.and_eq_true] at h
      have := ih rest h.2
      simp only [List.length_cons]
      omega

/-- A leftmost-match index leaves room for the whole pattern. -/
theorem findMatchIdx_bound (cs : Bool) (pat : Chars) :
    ∀ (s : Chars) (i : Nat), findMatchIdx cs pat s = some i → i + pat.length ≤ s.length := by
  intro s
  induction s with
  | nil =>
    intro i h
    rw [findMatchIdx] at h
    by_cases hm : matchHere cs pat [] = true
    · rw [if_pos hm] at h
      injection h with h2
      subst h2
      simpa using matchHere_le_length cs pat [] hm
    · rw [if_neg hm] at h
      cases h
  | cons c rest ih =>
    intro i h
    rw [findMatchIdx] at h
    by_cases hm : matchHere cs pat (c :: rest) = true
    · rw [if_pos hm] at h
      injection h with h2
      subst h2
      simpa using matchHere_le_length cs pat _ hm
    · rw [if_neg hm] at h
      rcases Option.map_eq_some'.mp h with ⟨j, hj, rfl⟩
      have := ih j hj
      simp only [List.length_cons]
      omega

/-- The spec-style replacer is inert on the empty string. -/
theorem specReplaceAux_nil (cs : Bool) {pat : Chars} (rep : Chars) (h : pat ≠ [])
    (f : Nat) : specReplaceAux cs pat rep f [] = [] := by
  cases f with
  | zero => rfl
  | succ k =>
    rw [specReplaceAux, findMatchIdx, matchHere_nil_false cs h]
    simp

/-- The spec-style replacer is inert when there is no match at all. -/
theorem specReplaceAux_no_match (cs : Bool) (pat rep s : Chars)
    (h : findMatchIdx cs pat s = none) (f : Nat) :
    specReplaceAux cs pat rep f s = s := by
  cases f with
  | zero => rfl
  | succ k => simp only [specReplaceAux, h]

/-- The spec-style replacer does not depend on its fuel, once the fuel
covers the input length. -/
theorem specReplaceAux_fuel (cs : Bool) {pat : Chars} (rep : Chars) (hpat : pat ≠ []) :
    ∀ (n : Nat) (s : Chars) (f1 f2 : Nat), s.length ≤ n → s.length ≤ f1 → s.length ≤ f2 →
      specReplaceAux cs pat rep f1 s = specReplaceAux cs pat rep f2 s := by
  intro n
  induction n with
  | zero =>
    intro s f1 f2 hn _ _
    have hs : s = [] := List.length_eq_zero.mp (Nat.le_zero.mp hn)
    subst hs
    rw [specReplaceAux_nil cs rep hpat, specReplaceAux_nil cs rep hpat]
  | succ n ih =>
    intro s f1 f2 hn h1 h2
    cases s with
    | nil => rw [specReplaceAux_nil cs rep hpat, specReplaceAux_nil cs rep hpat]
    | cons c rest =>
      obtain ⟨f1', rfl⟩ : ∃ k, f1 = k + 1 :=
        ⟨f1 - 1, by simp only [List.length_cons] at h1; omega⟩
      obtain ⟨f2', rfl⟩ : ∃ k, f2 = k + 1 :=
        ⟨f2 - 1, by simp only [List.length_cons] at h2; omega⟩
      have hplen : 1 ≤ pat.length := by
        cases pat with
        | nil => exact absurd rfl hpat
        | cons _ _ => simp
      cases hf : findMatchIdx cs pat (c :: rest) with
      | none => simp only [specReplaceAux, hf]
      | some i =>
        have hb := findMatchIdx_bound cs pat _ _ hf
        simp only [specReplaceAux, hf]
        have hrec := ih ((c :: rest).drop (i + pat.length)) f1' f2'
          (by simp only [List.length_drop, List.length_cons] at *; omega)
          (by simp only [List.length_drop, List.length_cons] at *; omega)
          (by simp only [List.length_drop, List.length_cons] at *; omega)
        rw [hrec]

/-- The implementation replacer equals the spec-style replacer. -/
theorem replaceAllAux_eq_spec (cs : Bool) {pat : Chars} (rep : Chars) (hpat : pat ≠ []) :
    ∀ (n : Nat) (s : Chars) (f1 f2 : Nat), s.length ≤ n → s.length ≤ f1 → s.length ≤ f2 →
      replaceAllAux cs pat rep f1 s = specReplaceAux cs pat rep f2 s := by
  intro n
  induction n with
  | zero =>
    intro s f1 f2 hn _ _
    have hs : s = [] := List.length_eq_zero.mp (Nat.le_zero.mp hn)
    subst hs
    have h1 : replaceAllAux cs pat rep f1 [] = [] := by cases f1 <;> rfl
    rw [h1, specReplaceAux_nil cs rep hpat]
  | succ n ih =>
    intro s f1 f2 hn h1 h2
    cases s with
    | nil =>
      have hh : replaceAllAux cs pat rep f1 [] = [] := by cases f1 <;> rfl
      rw [hh, specReplaceAux_nil cs rep hpat]
    | cons c rest =>
      obtain ⟨f1', rfl⟩ : ∃ k, f1 = k + 1 :=
        ⟨f1 - 1, by simp only [List.length_cons] at h1; omega⟩
      obtain ⟨f2', rfl⟩ : ∃ k, f2 = k + 1 :=
        ⟨f2 - 1, by simp only [List.length_cons] at h2; omega⟩
      have hplen : 1 ≤ pat.length := by
        cases pat with
        | nil => exact absurd rfl hpat
        | cons _ _ => simp
      by_cases hm : matchHere cs pat (c :: rest) = true
      · simp only [replaceAllAux, if_pos hm]
        have hfind : findMatchIdx cs pat (c :: rest) = some 0 := by
          rw [findMatchIdx, if_pos hm]
        simp only [specReplaceAux, hfind, List.take_zero, List.nil_append, Nat.zero_add]
        congr 1
        apply ih
        · simp only [List.length_drop, List.length_cons] at *; omega
        · simp only [List.length_drop, List.length_cons] at *; omega
        · simp only [List.length_drop, List.length_cons] at *; omega
      · simp only [replaceAllAux, if_neg hm]
        cases hf : findMatchIdx cs pat rest with
        | none =>
          have hfind : findMatchIdx cs pat (c :: rest) = none := by
            rw [findMatchIdx, if_neg hm, hf]
            rfl
          rw [specReplaceAux_no_match cs pat rep _ hfind]
          have hrest : replaceAllAux cs pat rep f1' rest
              = specReplaceAux cs pat rep rest.length rest := by
            apply ih
            · simp only [List.length_cons] at hn; omega
            · simp only [List.length_cons] at h1; omega
            · exact le_rfl
          rw [hrest, specReplaceAux_no_match cs pat rep _ hf]
        | some j =>
          have hfind : findMatchIdx cs pat (c :: rest) = some (j + 1) := by
            rw [findMatchIdx, if_neg hm, hf]
            rfl
          simp only [specReplaceAux, hfind]
          have hb := findMatchIdx_bound cs pat rest j hf
          have hne : rest ≠ [] := by
            intro e
            rw [e, findMatchIdx, matchHere_nil_false cs hpat] at hf
            simp at hf
          obtain ⟨m, hm2⟩ : ∃ m, rest.length = m + 1 :=
            ⟨rest.length - 1, by
              have := List.length_pos.mpr hne
              omega⟩
          have hrest : replaceAllAux cs pat rep f1' rest
              = specReplaceAux cs pat rep rest.length rest := by
            apply ih
            · simp only [List.length_cons] at hn; omega
            · simp only [List.length_cons] at h1; omega
            · exact le_rfl
          rw [hrest, hm2]
          simp only [specReplaceAux, hf, List.take_succ_cons]
          have hdropeq : (c :: rest).drop (j + 1 + pat.length) = rest.drop (j + pat.length) := by
            have he : j + 1 + pat.length = (j + pat.length) + 1 := by omega
            rw [he, List.drop_succ_cons]
          rw [hdropeq]
          have hinner : specReplaceAux cs pat rep m (rest.drop (j + pat.length))
              = specReplaceAux cs pat rep f2' (rest.drop (j + pat.length)) := by
            apply specReplaceAux_fuel cs rep hpat rest.length
            · simp only [List.length_drop]; omega
            · simp only [List.length_drop]; omega
            · simp only [List.length_drop]
              simp only [List.length_cons] at h2
              omega
          rw [hinner]
          simp

/-- Claim C5: for every basename, non-empty search pattern and replace
pattern, the transformer performs a global, non-overlapping, left-to-right
replacement of every match (equal to the spec-style leftmost-splice
replacer), and the replacement string is inserted verbatim: a replacement
containing a dollar reference stays literal. -/
theorem replace_all_global_verbatim :
    (∀ (cs : Bool) (pat rep s : Chars), pat ≠ [] →
        replace_all cs pat rep s = spec_replace_all cs pat rep s)
    ∧ replace_all true ("a".data) ("$1".data) ("xay".data) = "x$1y".data := by
  constructor
  · intro cs pat rep s hpat
    unfold replace_all spec_replace_all
    exact replaceAllAux_eq_spec cs rep hpat s.length s s.length s.length le_rfl le_rfl le_rfl
  · decide

/-- Witness for C5 at a concrete pattern and subject. -/
theorem replace_all_global_verbatim_witness :
    ("b".data ≠ ([] : Chars))
    ∧ replace_all false ("b".data) ("zz".data) ("abc".data)
        = spec_replace_all false ("b".data) ("zz".data) ("abc".data) :=
  ⟨by decide, replace_all_global_verbatim.1 false ("b".data) ("zz".data) ("abc".data)
    (by decide)⟩

/-! ### Exclusion: compiled groups versus per-token OR semantics -/

/-- Adding a glob matcher to the groups ORs its verdict in. -/
theorem excludedBy_cons_glob (acc : ExcludeSets) (m : Chars → Bool) (fp : Chars) :
    excludedBy { acc with globs := m :: acc.globs } fp = (m fp || excludedBy acc fp) := by
  simp only [excludedBy, List.any_cons]
  cases m fp <;> simp [Bool.or_comm, Bool.or_left_comm, Bool.or_assoc]

/-- Adding a regex matcher to the groups ORs its verdict in. -/
theorem excludedBy_cons_regex (acc : ExcludeSets) (m : Chars → Bool) (fp : Chars) :
    excludedBy { acc with regexes := m :: acc.regexes } fp = (m fp || excludedBy acc fp) := by
  simp only [excludedBy, List.any_cons]
  cases m fp <;> simp [Bool.or_comm, Bool.or_left_comm, Bool.or_assoc]

/-- Adding a filename-substring token ORs its verdict in. -/
theorem excludedBy_cons_nameSub (acc : ExcludeSets) (t fp : Chars) :
    excludedBy { acc with name_subs := t :: acc.name_subs } fp
      = (isSubstr t (lowerStr (baseName fp)) || excludedBy acc fp) := by
  simp only [excludedBy, List.any_cons]
  cases isSubstr t (lowerStr (baseName fp)) <;>
    simp [Bool.or_comm, Bool.or_left_comm, Bool.or_assoc]

/-- Adding a path-substring token ORs its verdict in. -/
theorem excludedBy_cons_pathSub (acc : ExcludeSets) (t fp : Chars) :
    excludedBy { acc with path_subs := t :: acc.path_subs } fp
      = (isSubstr t (lowerStr fp) || excludedBy acc fp) := by
  simp only [excludedBy, List.any_cons]
  cases isSubstr t (lowerStr fp) <;>
    simp [Bool.or_comm, Bool.or_left_comm, Bool.or_assoc]

/-- The compiled pipeline excludes a candidate exactly when some token of
the list matches it. -/
theorem compileTokens_excl_iff (rB gB : Chars → Option (Chars → Bool)) (fp : Chars) :
    ∀ toks : List Chars,
      excludedBy (compileTokens rB gB toks) fp = true
        ↔ ∃ raw ∈ toks, tokMatches rB gB fp raw := by
  intro toks
  induction toks with
  | nil => simp [compileTokens, excludedBy]
  | cons raw rest ih =>
    have hmem : ∀ P : Chars → Prop, (∃ x ∈ raw :: rest, P x) ↔ P raw ∨ ∃ x ∈ rest, P x := by
      intro P
      simp
    rcases hcl : classify raw with p | p | p | p
    · rcases hrb : rB p with _ | m
      · have hno : ¬ tokMatches rB gB fp raw := by
          simp [tokMatches, hcl, hrb]
        simp only [compileTokens, hcl, hrb]
        rw [ih, hmem _, or_iff_right hno]
      · have htm : tokMatches rB gB fp raw ↔ m fp = true := by
          simp [tokMatches, hcl, hrb]
        simp only [compileTokens, hcl, hrb]
        rw [excludedBy_cons_regex, Bool.or_eq_true, ih, hmem _, htm]
    · rcases hrb : gB p with _ | m
      · have hno : ¬ tokMatches rB gB fp raw := by
          simp [tokMatches, hcl, hrb]
        simp only [compileTokens, hcl, hrb]
        rw [ih, hmem _, or_iff_right hno]
      · have htm : tokMatches rB gB fp raw ↔ m fp = true := by
          simp [tokMatches, hcl, hrb]
        simp only [compileTokens, hcl, hrb]
        rw [excludedBy_cons_glob, Bool.or_eq_true, ih, hmem _, htm]
    · have htm : tokMatches rB gB fp raw ↔ isSubstr (lowerStr p) (lowerStr fp) = true := by
        simp [tokMatches, hcl]
      simp only [compileTokens, hcl]
      rw [excludedBy_cons_pathSub, Bool.or_eq_true, ih, hmem _, htm]
    · have htm : tokMatches rB gB fp raw
          ↔ isSubstr (lowerStr p) (lowerStr (baseName fp)) = true := by
        simp [tokMatches, hcl]
      simp only [compileTokens, hcl]
      rw [excludedBy_cons_nameSub, Bool.or_eq_true, ih, hmem _, htm]

/-- Claim C3: each trimmed non-empty comma-separated token is classified
into exactly one of the four kinds by the fixed priority (encoded in
`classify`), a candidate is excluded if and only if it matches at least
one compiled matcher from any of the four groups (logical OR over all
tokens), and an empty spec excludes nothing. -/
theorem exclusion_or_semantics (rB gB : Chars → Option (Chars → Bool))
    (spec fullPath : Chars) :
    (excludedBy (compileExcludes rB gB spec) fullPath = true
      ↔ ∃ raw ∈ tokensOf spec, tokMatches rB gB fullPath raw)
    ∧ excludedBy (compileExcludes rB gB []) fullPath = false := by
  constructor
  · exact compileTokens_excl_iff rB gB fullPath (tokensOf spec)
  · rfl

/-! ### Apply-time hard validation -/

/-- Claim C1: if grouping the changed records by normalized target path
yields any group of size greater than 1, or any record's target path
already exists on disk and differs case-insensitively from that record's
own original path, then apply_changes submits no rename at all, leaves
total/done/in_progress unchanged, and sets a status message reporting both
the duplicate-target group count and the existing-file conflict count. -/
theorem apply_changes_refuses_on_conflict (existsOn : Chars → Bool) (st : AppState)
    (hprog : st.conversion_in_progress = false)
    (hcol :
      (∃ t, 1 < ((changedFiles existsOn st).map (fun f => lowerStr (targetPathOf f))).count t)
      ∨ ∃ f ∈ changedFiles existsOn st,
          existsOn (targetPathOf f) = true
          ∧ lowerStr (targetPathOf f) ≠ lowerStr f.original_path) :
    (apply_changes existsOn st).2 = []
    ∧ (apply_changes existsOn st).1.conversion_total = st.conversion_total
    ∧ (apply_changes existsOn st).1.conversion_done = st.conversion_done
    ∧ (apply_changes existsOn st).1.conversion_in_progress = st.conversion_in_progress
    ∧ (apply_changes existsOn st).1.status_message
        = collisionMsg (dupGroups (changedFiles existsOn st)).length
            (existingConflicts existsOn (changedFiles existsOn st)).length := by
  have hch : changedFiles existsOn st ≠ [] := by
    rcases hcol with ⟨t, ht⟩ | ⟨f, hf, _, _⟩
    · intro e
      rw [e] at ht
      simp at ht
    · exact List.ne_nil_of_mem hf
  have hlen : ¬ (changedFiles existsOn st).length = 0 := by
    intro h0
    exact hch (List.length_eq_zero.mp h0)
  have hrefuse : dupGroups (changedFiles existsOn st) ≠ []
      ∨ existingConflicts existsOn (changedFiles existsOn st) ≠ [] := by
    rcases hcol with ⟨t, ht⟩ | ⟨f, hf, he, hne2⟩
    · left
      have hmem0 : t ∈ (changedFiles existsOn st).map (fun f => lowerStr (targetPathOf f)) := by
        by_contra hmm
        rw [List.count_eq_zero_of_not_mem hmm] at ht
        omega
      have hmem1 : t ∈ dupGroups (changedFiles existsOn st) := by
        apply List.mem_filter.mpr
        exact ⟨List.mem_dedup.mpr hmem0, decide_eq_true ht⟩
      exact List.ne_nil_of_mem hmem1
    · right
      have hmemf : f ∈ (changedFiles existsOn st).filter (fun f =>
          existsOn (targetPathOf f)
            && decide (lowerStr (targetPathOf f) ≠ lowerStr f.original_path)) := by
        apply List.mem_filter.mpr
        refine ⟨hf, ?_⟩
        rw [Bool.and_eq_true]
        exact ⟨he, decide_eq_true hne2⟩
      exact List.ne_nil_of_mem (List.mem_map_of_mem targetPathOf hmemf)
  simp [apply_changes, hprog, if_neg hlen, if_pos hrefuse, if_neg hch]

/-- Witness for C1: two changed records both targeting `d/same.txt` on a
disk where every path exists. -/
theorem apply_changes_refuses_on_conflict_witness :
    (apply_changes (fun _ => true) c1state).2 = []
    ∧ (apply_changes (fun _ => true) c1state).1.conversion_total = c1state.conversion_total
    ∧ (apply_changes (fun _ => true) c1state).1.conversion_done = c1state.conversion_done
    ∧ (apply_changes (fun _ => true) c1state).1.conversion_in_progress
        = c1state.conversion_in_progress
    ∧ (apply_changes (fun _ => true) c1state).1.status_message
        = collisionMsg (dupGroups (changedFiles (fun _ => true) c1state)).length
            (existingConflicts (fun _ => true) (changedFiles (fun _ => true) c1state)).length :=
  apply_changes_refuses_on_conflict (fun _ => true) c1state rfl
    (Or.inl ⟨"d/same.txt".data, by decide⟩)

/-! ### Progress ticks: counting and ordering -/

/-- The run invariant: the counter counts the performed fetches, and the
delivered plus pending tick values are exactly `1..counter`. -/
def runInv (cfg : RenameRun) : Prop :=
  cfg.counter = notIdleCount cfg.workers
  ∧ (cfg.channel ++ pendingVals cfg.workers).Perm (List.range' 1 cfg.counter)

/-- Updating one worker's status preserves the worker count. -/
theorem setAt_length (ws : List WStatus) (i : Nat) (w : WStatus) :
    (setAt ws i w).length = ws.length := by
  induction ws generalizing i with
  | nil => rfl
  | cons h t ih =>
    cases i with
    | zero => rfl
    | succ j => simp [setAt, ih]

/-- Fetching adds the fetched value to the pending multiset. -/
theorem pendingVals_setAt_fetch (ws : List WStatus) (i v : Nat)
    (h : ws.get? i = some .idle) :
    (pendingVals (setAt ws i (.fetched v))).Perm (v :: pendingVals ws) := by
  induction ws generalizing i with
  | nil => cases h
  | cons w t ih =>
    cases i with
    | zero =>
      injection h with h2
      subst h2
      simp [setAt, pendingVals]
    | succ j =>
      have hih := ih j h
      cases w with
      | idle => simpa [setAt, pendingVals] using hih
      | sent => simpa [setAt, pendingVals] using hih
      | fetched u =>
        simp only [setAt, pendingVals, List.filterMap_cons]
        refine (List.Perm.cons u hih).trans ?_
        exact List.Perm.swap v u _

/-- Submitting moves the worker's value from pending to done. -/
theorem pendingVals_setAt_sent (ws : List WStatus) (i v : Nat)
    (h : ws.get? i = some (.fetched v)) :
    (v :: pendingVals (setAt ws i .sent)).Perm (pendingVals ws) := by
  induction ws generalizing i with
  | nil => cases h
  | cons w t ih =>
    cases i with
    | zero =>
      injection h with h2
      subst h2
      simp [setAt, pendingVals]
    | succ j =>
      have hih := ih j h
      cases w with
      | idle => simpa [setAt, pendingVals] using hih
      | sent => simpa [setAt, pendingVals] using hih
      | fetched u =>
        simp only [setAt, pendingVals, List.filterMap_cons]
        refine (List.Perm.swap u v _).trans ?_
        exact List.Perm.cons u hih

/-- Fetching turns one idle worker non-idle. -/
theorem notIdleCount_setAt_fetch (ws : List WStatus) (i v : Nat)
    (h : ws.get? i = some .idle) :
    notIdleCount (setAt ws i (.fetched v)) = notIdleCount ws + 1 := by
  induction ws generalizing i with
  | nil => cases h
  | cons w t ih =>
    cases i with
    | zero =>
      injection h with h2
      subst h2
      simp [setAt, notIdleCount, List.filter_cons]
    | succ j =>
      have hih := ih j h
      simp only [notIdleCount] at hih
      simp only [setAt, notIdleCount, List.filter_cons]
      split
      · simp only [List.length_cons]
        omega
      · omega

/-- Submitting keeps the fetch count. -/
theorem notIdleCount_setAt_sent (ws : List WStatus) (i v : Nat)
    (h : ws.get? i = some (.fetched v)) :
    notIdleCount (setAt ws i .sent) = notIdleCount ws := by
  induction ws generalizing i with
  | nil => cases h
  | cons w t ih =>
    cases i with
    | zero =>
      injection h with h2
      subst h2
      simp [setAt, notIdleCount, List.filter_cons]
    | succ j =>
      have hih := ih j h
      simp only [notIdleCount] at hih
      simp only [setAt, notIdleCount, List.filter_cons]
      split
      · simp only [List.length_cons]
        omega
      · omega

/-- One step preserves the run invariant. -/
theorem stepRun_inv {cfg cfg' : RenameRun} {i : Nat} (h : stepRun cfg i = some cfg')
    (hinv : runInv cfg) : runInv cfg' := by
  obtain ⟨hc, hp⟩ := hinv
  unfold stepRun at h
  split at h
  case _ heq =>
    injection h with h2
    subst h2
    constructor
    · simp [notIdleCount_setAt_fetch _ _ _ heq, hc]
    · have hps := pendingVals_setAt_fetch cfg.workers i (cfg.counter + 1) heq
      have h1 : (cfg.channel ++ pendingVals (setAt cfg.workers i (.fetched (cfg.counter + 1)))).Perm
          (cfg.channel ++ ((cfg.counter + 1) :: pendingVals cfg.workers)) :=
        List.Perm.append_left _ hps
      refine h1.trans ?_
      refine List.perm_middle.trans ?_
      refine (List.Perm.cons _ hp).trans ?_
      rw [List.range'_concat 1 cfg.counter]
      have h2 : 1 + 1 * cfg.counter = cfg.counter + 1 := by omega
      rw [h2]
      exact (List.perm_append_singleton _ _).symm
  case _ v heq =>
    injection h with h2
    subst h2
    constructor
    · simpa [notIdleCount_setAt_sent _ _ _ heq] using hc
    · have hps := pendingVals_setAt_sent cfg.workers i v heq
      have h1 : (cfg.channel ++ [v] ++ pendingVals (setAt cfg.workers i .sent)).Perm
          (cfg.channel ++ pendingVals cfg.workers) := by
        rw [List.append_assoc]
        exact List.Perm.append_left _ hps
      exact h1.trans hp
  case _ => cases h

/-- Running any schedule preserves the invariant. -/
theorem runSched_inv : ∀ (sched : List Nat) (cfg cfg' : RenameRun),
    runSched cfg sched = some cfg' → runInv cfg → runInv cfg' := by
  intro sched
  induction sched with
  | nil =>
    intro cfg cfg' h hi
    injection h with h2
    subst h2
    exact hi
  | cons i rest ih =>
    intro cfg cfg' h hi
    rw [runSched] at h
    cases hs : stepRun cfg i with
    | none =>
      rw [hs] at h
      exact Option.noConfusion h
    | some cfg2 =>
      simp only [hs] at h
      exact ih cfg2 cfg' h (stepRun_inv hs hi)

/-- Running any schedule preserves the worker count. -/
theorem runSched_wlength : ∀ (sched : List Nat) (cfg cfg' : RenameRun),
    runSched cfg sched = some cfg' → cfg'.workers.length = cfg.workers.length := by
  intro sched
  induction sched with
  | nil =>
    intro cfg cfg' h
    injection h with h2
    subst h2
    rfl
  | cons i rest ih =>
    intro cfg cfg' h
    rw [runSched] at h
    cases hs : stepRun cfg i with
    | none => simp [hs] at h
    | some cfg2 =>
      simp only [hs] at h
      have h1 := ih cfg2 cfg' h
      have h2 : cfg2.workers.length = cfg.workers.length := by
        unfold stepRun at hs
        split at hs
        case _ heq =>
          injection hs with h3
          subst h3
          exact setAt_length _ _ _
        case _ v heq =>
          injection hs with h3
          subst h3
          exact setAt_length _ _ _
        case _ => cases hs
      rw [h1, h2]

/-- After completion nothing is pending. -/
theorem pendingVals_of_all_sent : ∀ ws : List WStatus,
    (∀ w ∈ ws, w = .sent) → pendingVals ws = [] := by
  intro ws
  induction ws with
  | nil => intro _; rfl
  | cons w t ih =>
    intro h
    have hw := h w (List.mem_cons_self w t)
    subst hw
    simp only [pendingVals, List.filterMap_cons]
    exact ih (fun x hx => h x (List.mem_cons_of_mem _ hx))

/-- After completion every worker counts as fetched. -/
theorem notIdleCount_of_all_sent : ∀ ws : List WStatus,
    (∀ w ∈ ws, w = .sent) → notIdleCount ws = ws.length := by
  intro ws
  induction ws with
  | nil => intro _; rfl
  | cons w t ih =>
    intro h
    have hw := h w (List.mem_cons_self w t)
    subst hw
    have ht := ih (fun x hx => h x (List.mem_cons_of_mem _ hx))
    simp only [notIdleCount] at ht
    simp only [notIdleCount, List.filter_cons]
    rw [if_pos (by decide : decide (WStatus.sent ≠ WStatus.idle) = true)]
    simp only [List.length_cons]
    omega

/-- The initial configuration satisfies the invariant. -/
theorem initRun_inv (n : Nat) : runInv (initRun n) := by
  constructor
  · simp only [initRun, notIdleCount]
    induction n with
    | zero => rfl
    | succ k ih =>
      simp only [List.replicate_succ, List.filter_cons]
      rw [if_neg (by decide : ¬ decide (WStatus.idle ≠ WStatus.idle) = true)]
      exact ih
  · simp only [initRun]
    have : pendingVals (List.replicate n .idle) = [] := by
      induction n with
      | zero => rfl
      | succ k ih =>
        simp only [List.replicate_succ, pendingVals, List.filterMap_cons]
        exact ih
    simp [this, List.range']

/-- Claim C7 counterexample: with two records, the schedule in which worker
0 fetches tick value 1, worker 1 then fetches value 2 and submits it, and
worker 0 submits last, is a valid complete run; the delivered `done` values
are 2 then 1, so `done` decreases and finishes at 1 instead of
`total = 2`. -/
theorem progress_done_not_monotonic_counterexample :
    runSched (initRun 2) [0, 1, 1, 0]
        = some ⟨2, [WStatus.sent, WStatus.sent], [2, 1]⟩
    ∧ ¬ List.Chain' (· ≤ ·) (doneTrace ⟨2, [WStatus.sent, WStatus.sent], [2, 1]⟩)
    ∧ (doneTrace ⟨2, [WStatus.sent, WStatus.sent], [2, 1]⟩).getLast? ≠ some 2 :=
  ⟨by decide, by simp [doneTrace, List.chain'_cons], by decide⟩

/-- Claim C7 (amended): during every complete apply run over `n` submitted
records, exactly `n` progress ticks are delivered (one per rename attempt),
and their values are a permutation of the counter values `1..n`; the shared
counter itself is monotonic, but the `done` field, overwritten by each tick
in delivery order, can decrease when a tick is delivered after a
later-valued one, and is monotonic ending at `done = total = n` only in
value order. -/
theorem progress_ticks_permutation (n : Nat) (sched : List Nat) (cfg : RenameRun)
    (h1 : runSched (initRun n) sched = some cfg) (h2 : allSent cfg) :
    cfg.channel.Perm (List.range' 1 n) ∧ cfg.channel.length = n := by
  have hinv := runSched_inv sched _ _ h1 (initRun_inv n)
  obtain ⟨hc, hp⟩ := hinv
  have hlen : cfg.workers.length = n := by
    have := runSched_wlength sched _ _ h1
    simpa [initRun] using this
  have hpend : pendingVals cfg.workers = [] := pendingVals_of_all_sent _ h2
  have hcnt : notIdleCount cfg.workers = cfg.workers.length :=
    notIdleCount_of_all_sent _ h2
  have hcn : cfg.counter = n := by rw [hc, hcnt, hlen]
  rw [hpend, List.append_nil, hcn] at hp
  refine ⟨hp, ?_⟩
  have := hp.length_eq
  simpa using this

/-- Witness for the amended C7 at a concrete in-order run. -/
theorem progress_ticks_permutation_witness :
    runSched (initRun 2) [0, 0, 1, 1] = some ⟨2, [WStatus.sent, WStatus.sent], [1, 2]⟩
    ∧ (([1, 2] : List Nat).Perm (List.range' 1 2) ∧ ([1, 2] : List Nat).length = 2) :=
  ⟨by decide, progress_ticks_permutation 2 [0, 0, 1, 1]
    ⟨2, [WStatus.sent, WStatus.sent], [1, 2]⟩ (by decide) (by simp [allSent])⟩

/-! ### Auto-numbering facts -/

/-- Inserting into the used-name map only adds names. -/
theorem updFn_mono (m : Chars → List Chars) (k v p : Chars) (x : Chars)
    (hx : x ∈ m p) : x ∈ updFn m k v p := by
  unfold updFn
  split
  · exact List.mem_cons_of_mem _ hx
  · exact hx

/-- The seeded map contains every scanned file's lowered original basename,
keyed by its parent directory. -/
theorem seedUsed_mem : ∀ (files : List FileEntry) (g : FileEntry), g ∈ files →
    lowerStr (baseName g.original_path) ∈ seedUsed files (parentKey g.original_path) := by
  intro files
  induction files with
  | nil => intro g hg; cases hg
  | cons f rest ih =>
    intro g hg
    rcases List.mem_cons.mp hg with rfl | hg2
    · unfold seedUsed updFn
      rw [if_pos rfl]
      exact List.mem_cons_self _ _
    · exact updFn_mono _ _ _ _ _ (ih g hg2)

/-- Correctness of the split helper: it splits at the last dot. -/
theorem rsplitDotAux_eq : ∀ (s b e : Chars), rsplitDotAux s = some (b, e) →
    s = b ++ '.' :: e := by
  intro s
  induction s with
  | nil => intro b e h; cases h
  | cons c t ih =>
    intro b e h
    rw [rsplitDotAux] at h
    cases ht : rsplitDotAux t with
    | some pr =>
      rw [ht] at h
      injection h with h2
      injection h2 with hb he
      subst hb
      subst he
      have := ih pr.1 pr.2 (by rw [ht])
      rw [List.cons_append, ← this]
    | none =>
      rw [ht] at h
      by_cases hc : c = '.'
      · rw [if_pos hc] at h
        injection h with h2
        injection h2 with hb he
        subst hb
        subst he
        rw [hc]
        rfl
      · rw [if_neg hc] at h
        cases h

/-- A candidate is the concatenation of its split base and extension. -/
theorem rsplitDot_decomp (s : Chars) : s = (rsplitDot s).1 ++ (rsplitDot s).2 := by
  unfold rsplitDot
  cases h : rsplitDotAux s with
  | none => simp
  | some pr =>
    simp only
    have := rsplitDotAux_eq s pr.1 pr.2 (by rw [h])
    exact this

/-- The decimal rendering is never empty. -/
theorem natDigits_ne_nil (n : Nat) : natDigits n ≠ [] := by
  rw [natDigits, natDigitsAux]
  split
  · simp
  · simp

/-- A numbered candidate is strictly longer than base-plus-extension. -/
theorem numbered_longer (base ext : Chars) (n : Nat) :
    (base ++ ext).length < (numbered base n ext).length := by
  have hd : 0 < (natDigits n).length := List.length_pos.mpr (natDigits_ne_nil n)
  simp only [numbered, List.length_append, List.length_cons]
  omega

/-- Every name the numbering loop can return is strictly longer than the
original base-plus-extension. -/
theorem pickFrom_longer (used : List Chars) (base ext : Chars) :
    ∀ (fuel n : Nat), (base ++ ext).length < (pickFrom used base ext fuel n).length := by
  intro fuel
  induction fuel with
  | zero =>
    intro n
    rw [pickFrom]
    exact numbered_longer base ext n
  | succ fuel ih =>
    intro n
    rw [pickFrom]
    split
    · exact ih (n + 1)
    · exact numbered_longer base ext n

/-- The renumbered name always differs from the colliding candidate. -/
theorem pickNumbered_ne (used : List Chars) (cand : Chars) :
    pickNumbered used cand ≠ cand := by
  intro e
  have h1 := pickFrom_longer used (rsplitDot cand).1 (rsplitDot cand).2 (used.length + 1) 2
  rw [pickNumbered] at e
  rw [e, ← rsplitDot_decomp cand] at h1
  exact Nat.lt_irrefl _ h1

/-- Auto-numbering preserves the record count. -/
theorem autoNumber_length : ∀ (l : List FileEntry) (m : Chars → List Chars),
    ((autoNumber m l).1).length = l.length := by
  intro l
  induction l with
  | nil => intro m; rfl
  | cons f rest ih =>
    intro m
    simp [autoNumber, ih]

/-- Auto-numbering preserves original paths pointwise. -/
theorem autoNumber_paths : ∀ (l : List FileEntry) (m : Chars → List Chars),
    ((autoNumber m l).1).map FileEntry.original_path = l.map FileEntry.original_path := by
  intro l
  induction l with
  | nil => intro m; rfl
  | cons f rest ih =>
    intro m
    simp [autoNumber, ih]

/-- One unfolding of the auto-numbering pass. -/
theorem autoNumber_tail (m : Chars → List Chars) (f : FileEntry) (rest : List FileEntry) :
    ∃ v, (autoNumber m (f :: rest)).1
      = { f with new_name := v }
        :: (autoNumber (updFn m (parentKey f.original_path) (lowerStr v)) rest).1 := by
  refine ⟨(if lowerStr f.new_name ∈ m (parentKey f.original_path)
    then (pickNumbered (m (parentKey f.original_path)) f.new_name, (1 : Nat))
    else (f.new_name, 0)).1, ?_⟩
  simp [autoNumber]

/-- A record whose lowered candidate is already in the used-name map at its
parent key is renumbered to a different name, and keeps its path. -/
theorem autoNumber_renumbers : ∀ (l : List FileEntry) (m : Chars → List Chars) (i : Nat)
    (fi : FileEntry), l.get? i = some fi →
    lowerStr fi.new_name ∈ m (parentKey fi.original_path) →
    ∃ p, ((autoNumber m l).1).get? i = some p
      ∧ p.original_path = fi.original_path ∧ p.new_name ≠ fi.new_name := by
  intro l
  induction l with
  | nil =>
    intro m i fi hfi _
    cases hfi
  | cons f rest ih =>
    intro m i fi hfi hmem
    cases i with
    | zero =>
      injection hfi with h2
      subst h2
      refine ⟨{ f with new_name := pickNumbered (m (parentKey f.original_path)) f.new_name },
        ?_, rfl, ?_⟩
      · simp [autoNumber, if_pos hmem]
      · exact pickNumbered_ne _ _
    | succ j =>
      rw [List.get?_cons_succ] at hfi
      obtain ⟨v, hv⟩ := autoNumber_tail m f rest
      have hmono := updFn_mono m (parentKey f.original_path) (lowerStr v)
        (parentKey fi.original_path) (lowerStr fi.new_name) hmem
      obtain ⟨p, hp1, hp2, hp3⟩ := ih
        (updFn m (parentKey f.original_path) (lowerStr v)) j fi hfi hmono
      refine ⟨p, ?_, hp2, hp3⟩
      rw [hv, List.get?_cons_succ]
      exact hp1

/-- The transformed record of a scanned file is in the transformed list. -/
theorem transformedFiles_mem (st : AppState) (f : FileEntry) (hf : f ∈ st.files) :
    { f with
      new_name := transform_name st.search_pattern st.replace_pattern st.case_sensitive
        (baseName f.original_path)
      search_pattern := st.search_pattern
      replace_pattern := st.replace_pattern
      case_sensitive := st.case_sensitive } ∈ transformedFiles st := by
  unfold transformedFiles
  exact List.mem_map_of_mem _ hf

/-- Claim C8: with auto-numbering enabled, every record whose transformed
basename differs from its own original basename only by letter case is
renumbered by update_preview to yet another name, because the per-directory
used-name set was seeded with that record's own lower-cased original
basename, which the candidate collides with even when no other file is
involved. -/
theorem case_only_rename_always_renumbered (st : AppState) (f : FileEntry)
    (hf : f ∈ st.files) (hauto : st.auto_number_on_conflict = true)
    (hcase : lowerStr (transform_name st.search_pattern st.replace_pattern st.case_sensitive
        (baseName f.original_path)) = lowerStr (baseName f.original_path))
    (hch : transform_name st.search_pattern st.replace_pattern st.case_sensitive
        (baseName f.original_path) ≠ baseName f.original_path) :
    ∃ p ∈ (update_preview_core st).preview_files,
      p.original_path = f.original_path
      ∧ p.new_name ≠ transform_name st.search_pattern st.replace_pattern st.case_sensitive
          (baseName f.original_path) := by
  have hf2 := transformedFiles_mem st f hf
  have hprev0 : { f with
      new_name := transform_name st.search_pattern st.replace_pattern st.case_sensitive
        (baseName f.original_path)
      search_pattern := st.search_pattern
      replace_pattern := st.replace_pattern
      case_sensitive := st.case_sensitive } ∈ previewOf (transformedFiles st) := by
    apply List.mem_filter.mpr
    refine ⟨hf2, decide_eq_true ?_⟩
    exact Ne.symm hch
  have hne : previewOf (transformedFiles st) ≠ [] := List.ne_nil_of_mem hprev0
  have han : numberedPreview st (transformedFiles st) (previewOf (transformedFiles st))
      = autoNumber (seedUsed (transformedFiles st)) (previewOf (transformedFiles st)) := by
    rw [numberedPreview, if_pos ⟨hauto, hne⟩]
  obtain ⟨i, hi⟩ := List.mem_iff_get?.mp hprev0
  have hseed : lowerStr ({ f with
      new_name := transform_name st.search_pattern st.replace_pattern st.case_sensitive
        (baseName f.original_path)
      search_pattern := st.search_pattern
      replace_pattern := st.replace_pattern
      case_sensitive := st.case_sensitive } : FileEntry).new_name
      ∈ seedUsed (transformedFiles st)
        (parentKey ({ f with
          new_name := transform_name st.search_pattern st.replace_pattern st.case_sensitive
            (baseName f.original_path)
          search_pattern := st.search_pattern
          replace_pattern := st.replace_pattern
          case_sensitive := st.case_sensitive } : FileEntry).original_path) := by
    have hs := seedUsed_mem (transformedFiles st) _ hf2
    simpa [hcase] using hs
  obtain ⟨p, hp1, hp2, hp3⟩ := autoNumber_renumbers (previewOf (transformedFiles st))
    (seedUsed (transformedFiles st)) i _ hi hseed
  have hpf : (update_preview_core st).preview_files
      = (autoNumber (seedUsed (transformedFiles st)) (previewOf (transformedFiles st))).1 := by
    simp only [update_preview_core]
    rw [han]
  refine ⟨p, ?_, ?_, ?_⟩
  · rw [hpf]
    exact List.get?_mem hp1
  · exact hp2
  · exact hp3

/-- Witness for C8: renaming `File.txt` to `file.txt` (case-only) with
auto-numbering on yields `file (2).txt`. -/
theorem case_only_rename_always_renumbered_witness :
    (entryOf "d/File.txt".data ∈ c8state.files
     ∧ c8state.auto_number_on_conflict = true
     ∧ lowerStr (transform_name c8state.search_pattern c8state.replace_pattern
          c8state.case_sensitive (baseName (entryOf "d/File.txt".data).original_path))
        = lowerStr (baseName (entryOf "d/File.txt".data).original_path)
     ∧ transform_name c8state.search_pattern c8state.replace_pattern c8state.case_sensitive
          (baseName (entryOf "d/File.txt".data).original_path)
        ≠ baseName (entryOf "d/File.txt".data).original_path)
    ∧ (∃ p ∈ (update_preview_core c8state).preview_files,
        p.original_path = (entryOf "d/File.txt".data).original_path
        ∧ p.new_name ≠ transform_name c8state.search_pattern c8state.replace_pattern
            c8state.case_sensitive (baseName (entryOf "d/File.txt".data).original_path))
    ∧ (update_preview_core c8state).preview_files.map FileEntry.new_name
        = ["file (2).txt".data] :=
  ⟨⟨by decide, rfl, by decide, by decide⟩,
    case_only_rename_always_renumbered c8state (entryOf "d/File.txt".data)
      (by decide) rfl (by decide) (by decide),
    by decide⟩

/-! ### Preview/files agreement -/

/-- Paths absent from a preview list are absent from its name map. -/
theorem buildNameMap_not_mem : ∀ (l : List FileEntry) (q : Chars),
    (∀ g ∈ l, g.original_path ≠ q) → buildNameMap l q = none := by
  intro l
  induction l with
  | nil => intro q _; rfl
  | cons f rest ih =>
    intro q h
    have hr := ih q (fun g hg => h g (List.mem_cons_of_mem _ hg))
    simp only [buildNameMap]
    rw [hr]
    simp only
    rw [if_neg]
    intro e
    exact h f (List.mem_cons_self f rest) e.symm

/-- With pairwise-distinct paths, the name map returns each entry's own
final name. -/
theorem buildNameMap_of_mem : ∀ (l : List FileEntry) (p : FileEntry), p ∈ l →
    (l.map FileEntry.original_path).Nodup →
    buildNameMap l p.original_path = some p.new_name := by
  intro l
  induction l with
  | nil => intro p hp _; cases hp
  | cons f rest ih =>
    intro p hp hnd
    rw [List.map_cons, List.nodup_cons] at hnd
    rcases List.mem_cons.mp hp with rfl | hp2
    · have hnone : buildNameMap rest p.original_path = none := by
        apply buildNameMap_not_mem
        intro g hg e
        exact hnd.1 (e ▸ List.mem_map_of_mem FileEntry.original_path hg)
      simp only [buildNameMap]
      rw [hnone]
      simp
    · have hres := ih p hp2 hnd.2
      show (match buildNameMap rest p.original_path with
        | some n => some n
        | none => if p.original_path = f.original_path then some f.new_name else none)
          = some p.new_name
      rw [hres]

/-- The write-back keeps every looked-up record with its mapped name. -/
theorem writeBack_mem (preview1 files2 : List FileEntry) (g : FileEntry)
    (hg : g ∈ files2) (hne : preview1 ≠ []) (n : Chars)
    (hb : buildNameMap preview1 g.original_path = some n) :
    { g with new_name := n } ∈ writeBack preview1 files2 := by
  rw [writeBack, if_pos hne]
  have hm := List.mem_map_of_mem (fun f =>
    match buildNameMap preview1 f.original_path with
    | some n => { f with new_name := n }
    | none => f) hg
  simpa [hb] using hm

/-- The transform step keeps the path sequence. -/
theorem transformedFiles_paths (st : AppState) :
    (transformedFiles st).map FileEntry.original_path
      = st.files.map FileEntry.original_path := by
  unfold transformedFiles
  rw [List.map_map]
  rfl

/-- The preview's path sequence is a sublist of the transformed list's. -/
theorem previewOf_paths_sublist (files2 : List FileEntry) :
    ((previewOf files2).map FileEntry.original_path).Sublist
      (files2.map FileEntry.original_path) :=
  List.Sublist.map _ (List.filter_sublist _)

/-- Auto-numbering (taken or skipped) keeps the preview's path sequence. -/
theorem numberedPreview_paths (st : AppState) (files2 preview0 : List FileEntry) :
    ((numberedPreview st files2 preview0).1).map FileEntry.original_path
      = preview0.map FileEntry.original_path := by
  rw [numberedPreview]
  split
  · exact autoNumber_paths preview0 _
  · rfl

/-- Claim C9: after update_preview's core, the record list and the preview
set agree: every preview entry has a record in `files` with the same
original path and an identical (possibly auto-numbered) new name, so a
subsequent apply over `files` executes exactly the names shown in the
preview.  The hypothesis holds for every scan, whose paths are pairwise
distinct. -/
theorem update_preview_files_agree (st : AppState)
    (hnd : (st.files.map FileEntry.original_path).Nodup) (p : FileEntry)
    (hp : p ∈ (update_preview_core st).preview_files) :
    ∃ f ∈ (update_preview_core st).files,
      f.original_path = p.original_path ∧ f.new_name = p.new_name := by
  have hps : (update_preview_core st).preview_files
      = (numberedPreview st (transformedFiles st) (previewOf (transformedFiles st))).1 := by
    simp [update_preview_core]
  have hfs : (update_preview_core st).files
      = writeBack
          (numberedPreview st (transformedFiles st) (previewOf (transformedFiles st))).1
          (transformedFiles st) := by
    simp [update_preview_core]
  rw [hps] at hp
  have hnd2 : ((transformedFiles st).map FileEntry.original_path).Nodup := by
    rw [transformedFiles_paths]
    exact hnd
  have hnd0 : ((previewOf (transformedFiles st)).map FileEntry.original_path).Nodup :=
    List.Nodup.sublist (previewOf_paths_sublist (transformedFiles st)) hnd2
  have hnd1 :
      (((numberedPreview st (transformedFiles st)
        (previewOf (transformedFiles st))).1).map FileEntry.original_path).Nodup := by
    rw [numberedPreview_paths]
    exact hnd0
  have hlook := buildNameMap_of_mem _ p hp hnd1
  have hpathmem : p.original_path
      ∈ (previewOf (transformedFiles st)).map FileEntry.original_path := by
    rw [← numberedPreview_paths st (transformedFiles st) (previewOf (transformedFiles st))]
    exact List.mem_map_of_mem _ hp
  obtain ⟨e, he0, hep⟩ := List.mem_map.mp hpathmem
  have he2 : e ∈ transformedFiles st := List.mem_of_mem_filter he0
  have hne1 : (numberedPreview st (transformedFiles st)
      (previewOf (transformedFiles st))).1 ≠ [] := List.ne_nil_of_mem hp
  have hmem3 : { e with new_name := p.new_name }
      ∈ writeBack
          (numberedPreview st (transformedFiles st) (previewOf (transformedFiles st))).1
          (transformedFiles st) := by
    apply writeBack_mem _ _ e he2 hne1 p.new_name
    rw [hep]
    exact hlook
  refine ⟨{ e with new_name := p.new_name }, ?_, ?_, rfl⟩
  · rw [hfs]
    exact hmem3
  · exact hep

/-- Witness for C9 at a one-record state whose preview renames `x.txt` to
`y.txt`. -/
theorem update_preview_files_agree_witness :
    ((c9state.files.map FileEntry.original_path).Nodup
      ∧ c9previewEntry ∈ (update_preview_core c9state).preview_files)
    ∧ ∃ f ∈ (update_preview_core c9state).files,
        f.original_path = c9previewEntry.original_path
        ∧ f.new_name = c9previewEntry.new_name :=
  ⟨⟨by decide, by decide⟩,
    update_preview_files_agree c9state (by decide) c9previewEntry (by decide)⟩
